import Mathlib

/-!
A shallow embedding of the `trim` utility (src/trim.rs, src/util.rs) in Lean 4.

Text is modelled at character granularity: a Rust `String` becomes `List Char`
and `len()` becomes `List.length`.  The whitespace class is the ASCII fragment
of the regex class `\s` used by `Regex::new(r"\s*$")`; multi-byte Unicode
whitespace and the byte/char distinction are outside the scope of the claims.
ANSI colour styling applied by `ansi_term` is dropped: a visualization record
keeps the printable characters of `format!("{:>6}|{}{}", n, trimmed, pad)`.
I/O sinks are modelled as accumulated buffers; a write-failure flag models a
sink whose write and flush calls fail.  A panic (from `Result::unwrap` on a
read error, or `Option::unwrap` on a missing file name) is a distinguished
outcome, separate from returning an `Err`.
-/

abbrev Str := List Char

/-- The ASCII fragment of the regex whitespace class `\s`:
space, tab, line feed, vertical tab, form feed, carriage return. -/
def isWs (c : Char) : Bool :=
  c == ' ' || c == '\t' || c == '\n' || c == '\x0b' || c == '\x0c' || c == '\r'

/-- `trailing_ws.replace(&line, "")` with `trailing_ws = Regex::new(r"\s*$")`:
remove the maximal whitespace suffix of the line (src/trim.rs line 159). -/
def rtrim (l : Str) : Str := (l.reverse.dropWhile isWs).reverse

/-- The value of `n as i32` for a Rust `usize` value `n` (truncate to the low
32 bits, reinterpreted as two's complement). -/
def toI32 (n : Nat) : Int :=
  if (n : Int) % 4294967296 < 2147483648 then (n : Int) % 4294967296
  else (n : Int) % 4294967296 - 4294967296

/-- Wrapping `i32` addition (release-profile Rust `+` on `i32`). -/
def addI32 (a b : Int) : Int := (a + b + 2147483648) % 4294967296 - 2147483648

/-- The state threaded through the fold of `trim_custom` (src/trim.rs lines
167-198): the accumulator `io::Result<(usize, usize)>` holding
`(lf_trimmed, u8_trimmed)`, together with the bytes written so far to the
output sink and the records written so far to the visualization sink. -/
structure EngineSt where
  acc : Except Str (Nat × Nat)
  out : Str
  vis : List Str

/-- The payload of the synthesized write error (its text is irrelevant). -/
def writeErrMsg : Str := ['w', 'r', 'i', 't', 'e']

/-- Model of `red_padding_with_len` (src/util.rs lines 65-70): `length`
copies of the filler character (red/white styling dropped). -/
def red_padding_with_len (length : Nat) : Str := List.replicate length '_'

/-- `{:>6}` formatting of the line number: right-aligned in width 6. -/
def padLeft6 (s : Str) : Str := List.replicate (6 - s.length) ' ' ++ s

def natStr (n : Nat) : Str := (Nat.repr n).data

/-- The visualization record for one line:
`format!("{:>6}|{}{}", line_number, trimmed_line, red_pad)`. -/
def visualRecord (lineNumber : Nat) (trimmed : Str) (saved : Nat) : Str :=
  padLeft6 (natStr lineNumber) ++ '|' :: (trimmed ++ red_padding_with_len saved)

/-- `Some(bytes_saved).filter(|x| x > &0).map(red_padding_with_len).map(|red_pad|
format!(...))` (src/trim.rs lines 161-164). -/
def visualFor (lineNumber : Nat) (trimmed : Str) (saved : Nat) : Option Str :=
  if 0 < saved then some (visualRecord lineNumber trimmed saved) else none

/-- One step of the fold of `trim_custom` (src/trim.rs lines 170-197) on an
`Ok` line.  An empty-after-trim line only bumps `lf_count` and the savings
total; a non-empty line flushes the pending newlines, writes the trimmed
text, writes its visualization record (when the sink is enabled and the
removed length is positive) and resets `lf_count` to 1.  When the
accumulator is already an `Err`, it is propagated unchanged. -/
def stepLine (writesFail visEnabled : Bool) (st : EngineSt) (n : Nat) (line : Str) : EngineSt :=
  let trimmed := rtrim line
  let saved := line.length - trimmed.length
  match st.acc with
  | .error _ => st
  | .ok (lfCount, total) =>
    if trimmed.length = 0 then
      { st with acc := .ok (lfCount + 1, total + saved) }
    else if writesFail then
      { st with acc := .error writeErrMsg }
    else
      { acc := .ok (1, total + saved),
        out := st.out ++ (List.replicate lfCount '\n' ++ trimmed),
        vis := st.vis ++ (if visEnabled then
            match visualFor n trimmed saved with
            | some v => [v]
            | none => []
          else []) }

/-- The iteration `lines.map(io::Result::unwrap).enumerate().map(+1).fold(...)`
(src/trim.rs lines 154-198).  Pulling an `Err` item panics (`Result::unwrap`)
before the fold body sees it; the second component records whether the
iteration panicked. -/
def foldLines (writesFail visEnabled : Bool) :
    EngineSt → Nat → List (Except Str Str) → EngineSt × Bool
  | st, _, [] => (st, false)
  | st, _, .error _ :: _ => (st, true)
  | st, n, .ok l :: rest =>
      foldLines writesFail visEnabled (stepLine writesFail visEnabled st n l) (n + 1) rest

/-- The outcome of one engine run: a panic (with the bytes already written),
an `Err` (with the bytes already written), or `Ok` with the returned
`bytes_saved` and the final contents of both sinks. -/
inductive RunRes where
  | panicked (out : Str) (vis : List Str)
  | error (e : Str) (out : Str) (vis : List Str)
  | ok (bytes_saved : Int) (out : Str) (vis : List Str)
deriving DecidableEq

def RunRes.outB : RunRes → Str
  | .panicked o _ => o
  | .error _ o _ => o
  | .ok _ o _ => o

def RunRes.visB : RunRes → List Str
  | .panicked _ v => v
  | .error _ _ v => v
  | .ok _ _ v => v

def RunRes.savedO : RunRes → Int
  | .ok s _ _ => s
  | _ => 0

/-- `trim_custom` (src/trim.rs lines 136-230).  After the fold, `?` surfaces a
write error; otherwise the canonical terminating newline is written unless
suppressed, both sinks are flushed, and `bytes_saved` is computed as
`(u8_trimmed + lf_trimmed) as i32` plus the `-1` correction when exactly one
newline is pending, plus `1` when the newline is suppressed. -/
def trim_custom (lines : List (Except Str Str))
    (visEnabled suppress_newline writesFail : Bool) : RunRes :=
  let r := foldLines writesFail visEnabled ⟨.ok (0, 0), [], []⟩ 1 lines
  if r.2 then .panicked r.1.out r.1.vis
  else
    match r.1.acc with
    | .error e => .error e r.1.out r.1.vis
    | .ok (lfTrimmed, u8Trimmed) =>
      if writesFail then .error writeErrMsg r.1.out r.1.vis
      else
        .ok (addI32 (addI32 (toI32 (u8Trimmed + lfTrimmed))
              (if lfTrimmed = 1 then -1 else 0))
              (if suppress_newline then 1 else 0))
          (r.1.out ++ (if suppress_newline then [] else ['\n']))
          r.1.vis

/-- The engine on a sequence of successfully read lines, with working sinks. -/
def trimPure (ls : List Str) (visEnabled suppress_newline : Bool) : RunRes :=
  trim_custom (ls.map .ok) visEnabled suppress_newline false

/-- Split on `'\n'`: the pieces between line feeds (one more piece than there
are line feeds). -/
def splitChars : Str → List Str
  | [] => [[]]
  | c :: rest =>
    if c = '\n' then [] :: splitChars rest
    else
      match splitChars rest with
      | [] => [[c]]
      | p :: ps => (c :: p) :: ps

/-- `BufRead::lines` pops the `'\n'` of a terminated line and then drops a
final `'\r'` if one remains. -/
def stripCR (l : Str) : Str := if l.getLast? = some '\r' then l.dropLast else l

/-- Carriage-return stripping for a file that does not end in `'\n'`: the
final piece was returned by `read_line` without a terminator, so no `'\n'`
is popped from it and a final `'\r'` is kept; every earlier piece was
`'\n'`-terminated and is stripped. -/
def stripCRInit : List Str → List Str
  | [] => []
  | [l] => [l]
  | l :: r :: rs => stripCR l :: stripCRInit (r :: rs)

/-- The pieces `BufRead::lines` yields before carriage-return stripping: split
on `'\n'`; an empty file yields no lines, and a final empty piece (the file
ended with `'\n'`) is not yielded. -/
def linesRaw (raw : Str) : List Str :=
  if raw = [] then []
  else if (splitChars raw).getLastD ['#'] = [] then (splitChars raw).dropLast
  else splitChars raw

/-- Model of `readlines` (src/util.rs lines 54-56): `BufReader::lines` over
the raw bytes of the file.  A `'\r'` is dropped only from pieces that were
`'\n'`-terminated: all of them when the file ends in `'\n'`, all but the
last one otherwise. -/
def splitLines (raw : Str) : List Str :=
  if raw.getLast? = some '\n' then (linesRaw raw).map stripCR
  else stripCRInit (linesRaw raw)

/-- The whole stream pipeline on the raw bytes of a file: `readlines`
followed by `trim_custom` (the `trim_iter` path, src/trim.rs lines 41-62). -/
def trimFromRaw (raw : Str) (visEnabled suppress_newline : Bool) : RunRes :=
  trim_custom ((splitLines raw).map .ok) visEnabled suppress_newline false

/-- A path component, as `std::path::Components` yields them: a normal name
or `..`.  (`.` components are normalized away by path parsing and a root is
recorded separately, so neither is modelled as a component.) -/
inductive PathComp where
  | normal (name : Str)
  | parent
deriving DecidableEq

/-- Model of `std::path::PathBuf`: whether the path is absolute, plus its
components. -/
structure RustPath where
  absolute : Bool
  comps : List PathComp
deriving DecidableEq

/-- Model of `Path::file_name`: the final normal component; `none` when the
path has no components (a root) or terminates in `..`. -/
def fileName (p : RustPath) : Option Str :=
  match p.comps.getLast? with
  | some (.normal s) => some s
  | _ => none

/-- The temporary path derived in `trim_file` (src/trim.rs lines 94-96):
`env::temp_dir().join(format!("{}.trim", hash_default(&basename)))`.
`hash_default` (SipHash via `DefaultHasher`, src/util.rs lines 22-29) is
abstracted as a function from the basename to a number; the temp directory
is an explicit parameter. -/
def tempPathOf (tmpDir : RustPath) (hash : Str → Nat) (basename : Str) : RustPath :=
  ⟨tmpDir.absolute, tmpDir.comps ++ [.normal (natStr (hash basename) ++ ('.' :: ['t', 'r', 'i', 'm']))]⟩

/-- The temporary path `trim_file` would use for a source path (its basename
hashed), when the path has a file name at all. -/
def tempPathForFile (tmpDir : RustPath) (hash : Str → Nat) (p : RustPath) : Option RustPath :=
  (fileName p).map (tempPathOf tmpDir hash)

/-- Which I/O steps of one `trim_file` call fail, as an explicit oracle:
removing a stale temp file, the `copy`, the truncating `open`, opening the
original for reading, the writes (and flushes) during trimming, and the
final `rename`. -/
structure IoOracle where
  removeFails : Bool
  copyFails : Bool
  openFails : Bool
  readFails : Bool
  writesFail : Bool
  renameFails : Bool
deriving DecidableEq

/-- The outcome `trim_files` records for one path: a panic, an `io::Error`,
or `Ok(TrimResult { bytes_saved })`. -/
inductive FileRes where
  | panickedF
  | errF
  | okF (bytes_saved : Int)
deriving DecidableEq

/-- A filesystem: the content, if any, at each path. -/
abbrev FS := RustPath → Option Str

/-- The steps of `trim_file` after the stale temp file (if any) has been
dealt with: `copy(path, &copy_path)`, the truncating open, `readlines(path)`,
the engine run writing into the temp file, and the final `rename`. -/
def trim_file_rest (copyPath : RustPath) (fs1 : FS) (o : IoOracle)
    (path : RustPath) (suppress_newline : Bool) : FileRes × FS :=
  match fs1 path with
  | none => (.errF, fs1)
  | some orig =>
    if o.copyFails then (.errF, fs1)
    else
      let fs2 := Function.update fs1 copyPath (some orig)
      if o.openFails then (.errF, fs2)
      else
        let fs3 := Function.update fs2 copyPath (some [])
        if o.readFails then (.errF, fs3)
        else
          match fs3 path with
          | none => (.errF, fs3)
          | some content =>
            match trim_custom ((splitLines content).map .ok) false suppress_newline
                o.writesFail with
            | .panicked outP _ => (.panickedF, Function.update fs3 copyPath (some outP))
            | .error _ outP _ => (.errF, Function.update fs3 copyPath (some outP))
            | .ok saved outF _ =>
              let fs4 := Function.update fs3 copyPath (some outF)
              if o.renameFails then (.errF, fs4)
              else (.okF saved,
                Function.update (Function.update fs4 copyPath none) path (fs4 copyPath))

/-- Model of `trim_file` (src/trim.rs lines 92-119).  Steps, in source order:
`path.file_name().unwrap()` (panics when the path has no file name); derive
the temp path; remove a stale temp file if one exists; copy the original to
the temp path; open the temp path with truncation; run `trim_custom` reading
the original and writing into the temp file (no visualization); finally
`rename` the temp file over the original.  Every failing step returns `Err`
at once; only the final rename touches the original path.  Returns the
outcome and the resulting filesystem. -/
def trim_file (tmpDir : RustPath) (hash : Str → Nat) (fs : FS) (o : IoOracle)
    (path : RustPath) (suppress_newline : Bool) : FileRes × FS :=
  match fileName path with
  | none => (.panickedF, fs)
  | some basename =>
    let copyPath := tempPathOf tmpDir hash basename
    if (fs copyPath).isSome then
      if o.removeFails then (.errF, fs)
      else trim_file_rest copyPath (Function.update fs copyPath none) o path suppress_newline
    else trim_file_rest copyPath fs o path suppress_newline

/-- Model of `trim_files` (src/trim.rs lines 81-89): one outcome per input
path.  The rayon parallelism is not modelled: each path's outcome is
computed against the given initial filesystem, and the collected mapping is
kept in input order. -/
def trim_files (tmpDir : RustPath) (hash : Str → Nat) (fs : FS) (o : IoOracle)
    (files : List RustPath) (suppress_newline : Bool) : List (RustPath × FileRes) :=
  files.map fun p => (p, (trim_file tmpDir hash fs o p suppress_newline).1)

/-! Specification-side helpers: closed forms for what the fold of
`trim_custom` accumulates, and facts relating them to the fold. -/

/-- Total length of the input lines. -/
def sumLen : List Str → Nat
  | [] => 0
  | l :: r => l.length + sumLen r

/-- Total whitespace removed across the lines (the final `u8_trimmed`). -/
def sumSaved : List Str → Nat
  | [] => 0
  | l :: r => (l.length - (rtrim l).length) + sumSaved r

/-- The final `lf_trimmed` of the fold, given the pending count `lf` on
entry, over the already-trimmed lines. -/
def lfSpec : Nat → List Str → Nat
  | lf, [] => lf
  | lf, t :: r => lfSpec (if t = [] then lf + 1 else 1) r

/-- The bytes the fold writes to the output sink, given the pending newline
count `lf` on entry, over the already-trimmed lines. -/
def emitFrom : Nat → List Str → Str
  | _, [] => []
  | lf, t :: r =>
    if t = [] then emitFrom (lf + 1) r
    else (List.replicate lf '\n' ++ t) ++ emitFrom 1 r

/-- The visualization records of one line, as the fold writes them when the
sink is enabled: one record when the removed length is positive (and the
line is reached in the non-empty branch), none otherwise. -/
def visPiece (n : Nat) (l : Str) : List Str :=
  match visualFor n (rtrim l) (l.length - (rtrim l).length) with
  | some v => [v]
  | none => []

/-- The visualization records the fold writes for the lines, numbering from
`n`: only lines whose trimmed text is non-empty produce a record. -/
def visSpecFrom : Nat → List Str → List Str
  | _, [] => []
  | n, l :: r => (if rtrim l = [] then [] else visPiece n l) ++ visSpecFrom (n + 1) r

/-- Remove the trailing run of empty lines. -/
def dropTrailingEmpties : List Str → List Str
  | [] => []
  | t :: r =>
    match dropTrailingEmpties r with
    | [] => if t = [] then [] else [t]
    | e :: es => t :: e :: es

/-- Join lines with single `'\n'` separators (no terminator). -/
def joinNL : List Str → Str
  | [] => []
  | [t] => t
  | t :: r :: rs => t ++ '\n' :: joinNL (r :: rs)

/-- The `bytes_saved` value `trim_custom` returns on a pure input. -/
def specSaved (ls : List Str) (supp : Bool) : Int :=
  addI32 (addI32 (toI32 (sumSaved ls + lfSpec 0 (ls.map rtrim)))
    (if lfSpec 0 (ls.map rtrim) = 1 then -1 else 0)) (if supp then 1 else 0)

/-- The records the visualization sink receives, stated independently of the
fold: walk the lines with 1-based numbering and keep one `visualFor` record
per line whose trimmed text is non-empty (lines trimming to empty never
reach the branch that writes a record, even when they lost bytes). -/
def visRecordsFn (p : Nat × Str) : Option Str :=
  if rtrim p.2 = [] then none
  else visualFor p.1 (rtrim p.2) (p.2.length - (rtrim p.2).length)

theorem foldLines_spec (v : Bool) (rest : List Str) :
    ∀ (st : EngineSt) (n lf u8 : Nat), st.acc = .ok (lf, u8) →
    foldLines false v st n (rest.map .ok) =
      ({ acc := .ok (lfSpec lf (rest.map rtrim), u8 + sumSaved rest),
         out := st.out ++ emitFrom lf (rest.map rtrim),
         vis := st.vis ++ (if v then visSpecFrom n rest else []) }, false) := by
  induction rest with
  | nil =>
    intro st n lf u8 hacc
    cases st with
    | mk acc out vis =>
      simp only [List.map_nil, foldLines, lfSpec, sumSaved, emitFrom, visSpecFrom] at hacc ⊢
      subst hacc
      simp
  | cons l r ih =>
    intro st n lf u8 hacc
    simp only [List.map_cons, foldLines]
    by_cases hl : rtrim l = []
    · have hstep : stepLine false v st n l = { st with acc := .ok (lf + 1, u8 + (l.length - (rtrim l).length)) } := by
        simp [stepLine, hacc, hl]
      rw [hstep, ih _ (n + 1) (lf + 1) (u8 + (l.length - (rtrim l).length)) rfl]
      simp only [lfSpec, sumSaved, emitFrom, visSpecFrom, hl, if_pos, List.map_cons]
      simp [Nat.add_assoc]
    · have hstep : stepLine false v st n l =
          { acc := .ok (1, u8 + (l.length - (rtrim l).length)),
            out := st.out ++ (List.replicate lf '\n' ++ rtrim l),
            vis := st.vis ++ (if v then visPiece n l else []) } := by
        simp [stepLine, hacc, hl, visPiece]
      rw [hstep, ih _ (n + 1) 1 (u8 + (l.length - (rtrim l).length)) rfl]
      simp only [lfSpec, sumSaved, emitFrom, visSpecFrom, hl, if_neg, ite_false, List.map_cons]
      cases v <;> simp [Nat.add_assoc, List.append_assoc]

/-- Closed form of a successful engine run on a pure input: the savings, the
output bytes, and the visualization records. -/
theorem trim_custom_ok (ls : List Str) (v supp : Bool) :
    trim_custom (ls.map .ok) v supp false =
      .ok (specSaved ls supp)
        (emitFrom 0 (ls.map rtrim) ++ (if supp then [] else ['\n']))
        (if v then visSpecFrom 1 ls else []) := by
  simp only [trim_custom,
    foldLines_spec v ls ⟨.ok (0, 0), [], []⟩ 1 0 0 rfl, specSaved]
  simp [Nat.zero_add]

theorem joinNL_cons_of_ne (t : Str) (r : List Str) (h : r ≠ []) :
    joinNL (t :: r) = t ++ '\n' :: joinNL r := by
  cases r with
  | nil => exact absurd rfl h
  | cons a as => rfl

theorem emitFrom_eq (ts : List Str) : ∀ lf : Nat,
    emitFrom lf ts =
      if dropTrailingEmpties ts = [] then []
      else List.replicate lf '\n' ++ joinNL (dropTrailingEmpties ts) := by
  induction ts with
  | nil => intro lf; simp [emitFrom, dropTrailingEmpties]
  | cons t r ih =>
    intro lf
    by_cases ht : t = []
    · subst ht
      simp only [emitFrom, if_pos rfl, ih (lf + 1), dropTrailingEmpties]
      cases hr : dropTrailingEmpties r with
      | nil => simp [hr]
      | cons e es =>
        simp only [hr, if_neg (List.cons_ne_nil e es)]
        rw [if_neg (List.cons_ne_nil [] (e :: es))]
        rw [joinNL_cons_of_ne [] (e :: es) (List.cons_ne_nil e es)]
        simp [List.replicate_succ' lf '\n']
    · simp only [emitFrom, if_neg ht, ih 1, dropTrailingEmpties]
      cases hr : dropTrailingEmpties r with
      | nil =>
        simp only [hr, if_neg ht]
        rw [if_neg (List.cons_ne_nil t [])]
        simp [joinNL]
      | cons e es =>
        simp only [hr, if_neg (List.cons_ne_nil e es)]
        rw [if_neg (List.cons_ne_nil t (e :: es))]
        rw [joinNL_cons_of_ne t (e :: es) (List.cons_ne_nil e es)]
        simp [List.replicate_succ]

theorem emitFrom_zero (ts : List Str) :
    emitFrom 0 ts = joinNL (dropTrailingEmpties ts) := by
  rw [emitFrom_eq]
  by_cases h : dropTrailingEmpties ts = []
  · rw [if_pos h, h]
    rfl
  · rw [if_neg h, List.replicate_zero, List.nil_append]

theorem getLastD_indep (l : List Str) (a b : Str) (h : l ≠ []) :
    l.getLastD a = l.getLastD b := by
  cases l with
  | nil => exact absurd rfl h
  | cons x xs => rw [List.getLastD_cons, List.getLastD_cons]

theorem dTE_cons (t : Str) (r : List Str) :
    dropTrailingEmpties (t :: r) =
      match dropTrailingEmpties r with
      | [] => if t = [] then [] else [t]
      | e :: es => t :: e :: es := rfl

theorem dTE_cons_nil (t : Str) (r : List Str) (hr : dropTrailingEmpties r = []) :
    dropTrailingEmpties (t :: r) = if t = [] then [] else [t] := by
  rw [dTE_cons, hr]

theorem dTE_cons_cons (t e : Str) (r es : List Str)
    (hr : dropTrailingEmpties r = e :: es) :
    dropTrailingEmpties (t :: r) = t :: e :: es := by
  rw [dTE_cons, hr]

theorem dTE_decomp (ts : List Str) :
    ∃ tr, ts = dropTrailingEmpties ts ++ tr ∧ ∀ x ∈ tr, x = ([] : Str) := by
  induction ts with
  | nil => exact ⟨[], rfl, by simp⟩
  | cons t r ih =>
    obtain ⟨tr, htr, hall⟩ := ih
    cases hr : dropTrailingEmpties r with
    | nil =>
      rw [hr, List.nil_append] at htr
      by_cases ht : t = []
      · refine ⟨t :: r, ?_, ?_⟩
        · rw [dTE_cons_nil t r hr, if_pos ht, List.nil_append]
        · intro x hx
          rcases List.mem_cons.1 hx with h1 | h2
          · rw [h1, ht]
          · exact hall x (htr ▸ h2)
      · refine ⟨tr, ?_, hall⟩
        rw [dTE_cons_nil t r hr, if_neg ht]
        rw [htr]
        rfl
    | cons e es =>
      refine ⟨tr, ?_, hall⟩
      rw [dTE_cons_cons t e r es hr]
      rw [hr] at htr
      rw [List.cons_append, ← htr]

theorem dTE_getLast (ts : List Str) (h : dropTrailingEmpties ts ≠ []) :
    (dropTrailingEmpties ts).getLastD ['#'] ≠ [] := by
  induction ts with
  | nil => exact absurd rfl h
  | cons t r ih =>
    cases hr : dropTrailingEmpties r with
    | nil =>
      rw [dTE_cons_nil t r hr] at h ⊢
      by_cases ht : t = []
      · rw [if_pos ht] at h; exact absurd rfl h
      · rw [if_neg ht]
        simpa [List.getLastD_cons] using ht
    | cons e es =>
      rw [dTE_cons_cons t e r es hr]
      rw [List.getLastD_cons, getLastD_indep (e :: es) t ['#'] (List.cons_ne_nil e es)]
      have := ih (by rw [hr]; exact List.cons_ne_nil e es)
      rwa [hr] at this

theorem dTE_eq_self (ts : List Str) (h : ts.getLastD ['#'] ≠ []) :
    dropTrailingEmpties ts = ts := by
  induction ts with
  | nil => rfl
  | cons t r ih =>
    cases r with
    | nil =>
      rw [List.getLastD_cons, List.getLastD_nil] at h
      rw [dTE_cons_nil t [] rfl, if_neg h]
    | cons a as =>
      have h' : (a :: as).getLastD ['#'] ≠ [] := by
        rw [List.getLastD_cons] at h
        rwa [getLastD_indep (a :: as) t ['#'] (List.cons_ne_nil a as)] at h
      cases has : dropTrailingEmpties as with
      | nil =>
        have := ih h'
        rw [dTE_cons_nil a as has] at this
        by_cases ha : a = []
        · rw [if_pos ha] at this; exact absurd this.symm (List.cons_ne_nil a as)
        · rw [if_neg ha] at this
          have h2 : as = [] := by
            injection this with _ h2
            exact h2.symm
          subst h2
          rw [dTE_cons_cons t a [a] [] (by rw [dTE_cons_nil a [] rfl, if_neg ha])]
      | cons e es =>
        have hd : dropTrailingEmpties (a :: as) = a :: as := ih h'
        exact dTE_cons_cons t a (a :: as) as hd

theorem lfSpec_of_last_ne (ts : List Str) : ∀ lf : Nat, ts ≠ [] →
    ts.getLastD ['#'] ≠ [] → lfSpec lf ts = 1 := by
  induction ts with
  | nil => intro lf h _; exact absurd rfl h
  | cons t r ih =>
    intro lf _ h2
    cases r with
    | nil =>
      rw [List.getLastD_cons, List.getLastD_nil] at h2
      simp [lfSpec, h2]
    | cons a as =>
      have h' : (a :: as).getLastD ['#'] ≠ [] := by
        rw [List.getLastD_cons] at h2
        rwa [getLastD_indep (a :: as) t ['#'] (List.cons_ne_nil a as)] at h2
      simp only [lfSpec]
      exact ih _ (List.cons_ne_nil a as) h'

theorem lfSpec_le (ts : List Str) : ∀ lf : Nat, lfSpec lf ts ≤ lf + ts.length := by
  induction ts with
  | nil => intro lf; simp [lfSpec]
  | cons t r ih =>
    intro lf
    simp only [lfSpec, List.length_cons]
    by_cases ht : t = []
    · rw [if_pos ht]
      exact Nat.le_trans (ih (lf + 1)) (by omega)
    · rw [if_neg ht]
      exact Nat.le_trans (ih 1) (by omega)

theorem sumSaved_le (ls : List Str) : sumSaved ls ≤ sumLen ls := by
  induction ls with
  | nil => exact Nat.le_refl 0
  | cons l r ih =>
    simp only [sumSaved, sumLen]
    exact Nat.add_le_add (Nat.sub_le _ _) ih

theorem toI32_of_lt (n : Nat) (h : n < 2147483648) : toI32 n = n := by
  simp only [toI32]
  split <;> omega

theorem addI32_of (a b : Int) (h1 : -2147483648 ≤ a + b) (h2 : a + b < 2147483648) :
    addI32 a b = a + b := by
  simp only [addI32]
  omega

theorem rtrim_length_le (l : Str) : (rtrim l).length ≤ l.length := by
  simp only [rtrim, List.length_reverse]
  calc (l.reverse.dropWhile isWs).length ≤ l.reverse.length :=
        (List.dropWhile_suffix isWs).length_le
    _ = l.length := List.length_reverse l

theorem rtrim_append_ws (l : Str) (c : Char) (h : isWs c = true) :
    rtrim (l ++ [c]) = rtrim l := by
  simp [rtrim, List.reverse_append, List.dropWhile, h]

theorem rtrim_replicate_space (n : Nat) : rtrim (List.replicate n ' ') = [] := by
  induction n with
  | zero => rfl
  | succ k ih =>
    rw [List.replicate_succ']
    rw [rtrim_append_ws _ ' ' rfl]
    exact ih

theorem stripCR_of_rtrim_fix (l : Str) (h : rtrim l = l) : stripCR l = l := by
  unfold stripCR
  by_cases hc : l.getLast? = some '\r'
  · exfalso
    have hne : l ≠ [] := by
      intro h0
      rw [h0] at hc
      exact Option.noConfusion hc
    have hlast : l.getLast hne = '\r' := by
      have h3 := List.getLast?_eq_getLast l hne
      rw [hc] at h3
      exact (Option.some_inj.mp h3).symm
    have hdecomp : l.dropLast ++ [l.getLast hne] = l := List.dropLast_append_getLast hne
    have heq : rtrim l = rtrim l.dropLast := by
      conv_lhs => rw [← hdecomp]
      rw [hlast]
      exact rtrim_append_ws _ '\r' rfl
    have hlen : l.length ≤ l.dropLast.length := by
      have h2 : l.length = (rtrim l.dropLast).length := by rw [← heq, h]
      rw [h2]
      exact rtrim_length_le _
    have : l.dropLast.length < l.length := by
      rw [List.length_dropLast]
      have : 0 < l.length := List.length_pos.2 hne
      omega
    omega
  · rw [if_neg hc]

theorem splitChars_ne_nil (raw : Str) : splitChars raw ≠ [] := by
  cases raw with
  | nil => exact List.cons_ne_nil [] []
  | cons c rest =>
    simp only [splitChars]
    by_cases hc : c = '\n'
    · rw [if_pos hc]; exact List.cons_ne_nil _ _
    · rw [if_neg hc]
      cases hs : splitChars rest with
      | nil => exact List.cons_ne_nil _ _
      | cons p ps => exact List.cons_ne_nil _ _

theorem joinNL_splitChars (raw : Str) : joinNL (splitChars raw) = raw := by
  induction raw with
  | nil => rfl
  | cons c rest ih =>
    simp only [splitChars]
    by_cases hc : c = '\n'
    · rw [if_pos hc]
      rw [joinNL_cons_of_ne [] (splitChars rest) (splitChars_ne_nil rest)]
      rw [ih, hc]
      rfl
    · rw [if_neg hc]
      cases hs : splitChars rest with
      | nil => exact absurd hs (splitChars_ne_nil rest)
      | cons p ps =>
        rw [hs] at ih
        cases ps with
        | nil =>
          simp only [joinNL] at ih ⊢
          rw [ih]
        | cons q qs =>
          rw [joinNL_cons_of_ne (c :: p) (q :: qs) (List.cons_ne_nil q qs)]
          rw [joinNL_cons_of_ne p (q :: qs) (List.cons_ne_nil q qs)] at ih
          rw [List.cons_append, ih]

theorem splitChars_append_lf (a : Str) :
    splitChars (a ++ ['\n']) = splitChars a ++ [[]] := by
  induction a with
  | nil => rfl
  | cons c rest ih =>
    rw [List.cons_append]
    simp only [splitChars, List.append_eq_has_append]
    by_cases hc : c = '\n'
    · rw [if_pos hc, if_pos hc, ih]
      rfl
    · rw [if_neg hc, if_neg hc, ih]
      cases hs : splitChars rest with
      | nil => exact absurd hs (splitChars_ne_nil rest)
      | cons p ps => rfl

theorem splitChars_getLast_of_ne (raw : Str) (c : Char) (hc : c ≠ '\n') :
    (splitChars (raw ++ [c])).getLastD ['#'] ≠ [] := by
  induction raw with
  | nil =>
    simp [splitChars, if_neg hc, List.getLastD_cons]
  | cons d rest ih =>
    rw [List.cons_append]
    simp only [splitChars, List.append_eq_has_append]
    by_cases hd : d = '\n'
    · rw [if_pos hd, List.getLastD_cons]
      rw [getLastD_indep (splitChars (rest ++ [c])) [] ['#'] (splitChars_ne_nil _)]
      exact ih
    · rw [if_neg hd]
      cases hs : splitChars (rest ++ [c]) with
      | nil => exact absurd hs (splitChars_ne_nil _)
      | cons p ps =>
        cases ps with
        | nil =>
          show ([d :: p] : List Str).getLastD ['#'] ≠ []
          simp [List.getLastD_cons]
        | cons q qs =>
          show ((d :: p) :: q :: qs : List Str).getLastD ['#'] ≠ []
          rw [hs, List.getLastD_cons] at ih
          rw [List.getLastD_cons]
          rw [getLastD_indep (q :: qs) (d :: p) p (List.cons_ne_nil q qs)]
          exact ih

theorem linesRaw_of_last_ne_lf (raw : Str) (h : raw ≠ []) (h2 : raw.getLast? ≠ some '\n') :
    linesRaw raw = splitChars raw := by
  have hlast : raw.getLast h ≠ '\n' := by
    intro h0
    exact h2 (h0 ▸ List.getLast?_eq_getLast raw h)
  have hd : raw.dropLast ++ [raw.getLast h] = raw := List.dropLast_append_getLast h
  have hg : (splitChars raw).getLastD ['#'] ≠ [] := by
    rw [← hd]
    exact splitChars_getLast_of_ne raw.dropLast (raw.getLast h) hlast
  rw [linesRaw, if_neg h, if_neg hg]

theorem linesRaw_append_lf (a : Str) : linesRaw (a ++ ['\n']) = splitChars a := by
  have hne : a ++ ['\n'] ≠ [] := by
    intro h0
    exact List.append_ne_nil_of_right_ne_nil a (List.cons_ne_nil '\n' []) h0
  have hsp : splitChars (a ++ ['\n']) = splitChars a ++ [[]] := splitChars_append_lf a
  have hg : (splitChars (a ++ ['\n'])).getLastD ['#'] = [] := by
    rw [hsp, List.getLastD_eq_getLast?, List.getLast?_concat]
    rfl
  rw [linesRaw, if_neg hne, if_pos hg, hsp, List.dropLast_concat]

theorem map_fix (f : Str → Str) (l : List Str) (h : ∀ x ∈ l, f x = x) : l.map f = l := by
  induction l with
  | nil => rfl
  | cons x xs ih =>
    rw [List.map_cons, h x (List.mem_cons_self x xs),
      ih fun y hy => h y (List.mem_cons_of_mem x hy)]

theorem stripCRInit_fix (l : List Str) : (∀ x ∈ l, stripCR x = x) → stripCRInit l = l := by
  induction l with
  | nil => intro _; rfl
  | cons a tail ih =>
    intro h
    cases tail with
    | nil => rfl
    | cons b bs =>
      rw [stripCRInit, h a (List.mem_cons_self a (b :: bs)),
        ih fun y hy => h y (List.mem_cons_of_mem a hy)]

theorem sumSaved_zero_of_fix (ls : List Str) (h : ∀ l ∈ ls, rtrim l = l) :
    sumSaved ls = 0 := by
  induction ls with
  | nil => rfl
  | cons l r ih =>
    rw [sumSaved, h l (List.mem_cons_self l r), Nat.sub_self,
      ih fun y hy => h y (List.mem_cons_of_mem l hy)]

theorem visSpecFrom_nil_of_fix (ls : List Str) : ∀ n : Nat, (∀ l ∈ ls, rtrim l = l) →
    visSpecFrom n ls = [] := by
  induction ls with
  | nil => intro n _; rfl
  | cons l r ih =>
    intro n h
    have hl : rtrim l = l := h l (List.mem_cons_self l r)
    have hp : visPiece n l = [] := by
      rw [visPiece, hl, Nat.sub_self]
      rfl
    rw [visSpecFrom, ih (n + 1) fun y hy => h y (List.mem_cons_of_mem l hy), hp]
    simp

/-- Claim C9, as the code has it.  For input whose lines are already trimmed
(no trailing whitespace on any line, no trailing blank lines) and whose
trailing-newline convention matches `suppress_newline`, the engine output is
byte-for-byte the input and no visualization record is produced; but the
returned `bytes_saved` is `0` only in the default mode, and `1` when the
final newline is suppressed. -/
theorem c9_idempotent (raw : Str) (v supp : Bool)
    (h1 : ∀ l ∈ linesRaw raw, rtrim l = l)
    (h2 : (linesRaw raw).getLastD ['#'] ≠ [])
    (h3 : if supp then raw.getLast? ≠ some '\n' else raw.getLast? = some '\n') :
    trimFromRaw raw v supp = .ok (if supp then 1 else 0) raw [] := by
  have hfixed : ∀ l ∈ linesRaw raw, stripCR l = l :=
    fun l hl => stripCR_of_rtrim_fix l (h1 l hl)
  have hmap : (linesRaw raw).map rtrim = linesRaw raw := map_fix rtrim _ h1
  have hvis : visSpecFrom 1 (linesRaw raw) = [] := visSpecFrom_nil_of_fix _ 1 h1
  have hsum : sumSaved (linesRaw raw) = 0 := sumSaved_zero_of_fix _ h1
  cases supp with
  | true =>
    have h3' : raw.getLast? ≠ some '\n' := by simpa using h3
    have hlines : splitLines raw = linesRaw raw := by
      rw [splitLines, if_neg h3']
      exact stripCRInit_fix _ hfixed
    rw [trimFromRaw, hlines, trim_custom_ok]
    by_cases hr : raw = []
    · subst hr
      have hnil : linesRaw [] = [] := by rw [linesRaw, if_pos rfl]
      rw [hnil] at hmap hvis hsum ⊢
      simp [specSaved, lfSpec, sumSaved, emitFrom, visSpecFrom, toI32, addI32]
    · have hls : linesRaw raw = splitChars raw := linesRaw_of_last_ne_lf raw hr h3'
      have lsne : linesRaw raw ≠ [] := by rw [hls]; exact splitChars_ne_nil raw
      have hdte : dropTrailingEmpties (linesRaw raw) = linesRaw raw := dTE_eq_self _ h2
      have hlf : lfSpec 0 (linesRaw raw) = 1 := lfSpec_of_last_ne _ 0 lsne h2
      have hout : emitFrom 0 (linesRaw raw) = raw := by
        rw [emitFrom_eq, hdte, if_neg lsne, List.replicate_zero, List.nil_append, hls,
          joinNL_splitChars]
      rw [hmap, hout, hvis]
      simp [specSaved, hmap, hlf, hsum, toI32, addI32]
  | false =>
    have h3' : raw.getLast? = some '\n' := by simpa using h3
    have hlines : splitLines raw = linesRaw raw := by
      rw [splitLines, if_pos h3']
      exact map_fix stripCR _ hfixed
    rw [trimFromRaw, hlines, trim_custom_ok]
    have hne : raw ≠ [] := by
      intro h0
      rw [h0] at h3'
      exact Option.noConfusion h3'
    have hlast : raw.getLast hne = '\n' :=
      Option.some_inj.mp ((List.getLast?_eq_getLast raw hne).symm.trans h3')
    have hdec : raw.dropLast ++ ['\n'] = raw := by
      rw [← hlast]
      exact List.dropLast_append_getLast hne
    have hls : linesRaw raw = splitChars raw.dropLast := by
      conv_lhs => rw [← hdec]
      rw [linesRaw_append_lf]
    have lsne : linesRaw raw ≠ [] := by rw [hls]; exact splitChars_ne_nil _
    have hdte : dropTrailingEmpties (linesRaw raw) = linesRaw raw := dTE_eq_self _ h2
    have hlf : lfSpec 0 (linesRaw raw) = 1 := lfSpec_of_last_ne _ 0 lsne h2
    have hout : emitFrom 0 (linesRaw raw) = raw.dropLast := by
      rw [emitFrom_eq, hdte, if_neg lsne, List.replicate_zero, List.nil_append, hls,
        joinNL_splitChars]
    rw [hmap, hout, hvis]
    simp only [specSaved, hmap, hlf, hsum]
    norm_num [hdec, toI32, addI32]

theorem trim_custom_writesFail_ne_ok (lines : List (Except Str Str)) (v s : Bool)
    (sv : Int) (out : Str) (vis : List Str) :
    trim_custom lines v s true ≠ .ok sv out vis := by
  intro h
  rcases hfold : foldLines true v ⟨.ok (0, 0), [], []⟩ 1 lines with ⟨st, pk⟩
  rw [trim_custom, hfold] at h
  cases pk with
  | true => exact RunRes.noConfusion h
  | false =>
    cases hacc : st.acc with
    | error e => rw [hacc] at h; exact RunRes.noConfusion h
    | ok ab =>
      rcases ab with ⟨a, b⟩
      rw [hacc] at h
      simp at h

theorem savedO_ok (s : Int) (o : Str) (vv : List Str) : (RunRes.ok s o vv).savedO = s := rfl

theorem outB_ok (s : Int) (o : Str) (vv : List Str) : (RunRes.ok s o vv).outB = o := rfl

theorem visB_ok (s : Int) (o : Str) (vv : List Str) : (RunRes.ok s o vv).visB = vv := rfl

theorem trimPure_savedO (ls : List Str) (v supp : Bool) :
    (trimPure ls v supp).savedO = specSaved ls supp :=
  (congrArg RunRes.savedO (trim_custom_ok ls v supp)).trans (savedO_ok _ _ _)

theorem trimPure_outB (ls : List Str) (v supp : Bool) :
    (trimPure ls v supp).outB =
      emitFrom 0 (ls.map rtrim) ++ (if supp then [] else ['\n']) :=
  (congrArg RunRes.outB (trim_custom_ok ls v supp)).trans (outB_ok _ _ _)

theorem trimPure_visB (ls : List Str) (v supp : Bool) :
    (trimPure ls v supp).visB = (if v then visSpecFrom 1 ls else []) :=
  (congrArg RunRes.visB (trim_custom_ok ls v supp)).trans (visB_ok _ _ _)

theorem specSaved_true_eq (ls : List Str)
    (hsize : sumLen ls + ls.length + 1 < 2147483648) :
    specSaved ls true = specSaved ls false + 1 := by
  have hu8 : sumSaved ls ≤ sumLen ls := sumSaved_le ls
  have hlf : lfSpec 0 (ls.map rtrim) ≤ 0 + (ls.map rtrim).length := lfSpec_le (ls.map rtrim) 0
  rw [List.length_map] at hlf
  simp only [specSaved]
  rw [toI32_of_lt _ (by omega)]
  by_cases h1 : lfSpec 0 (ls.map rtrim) = 1
  · rw [if_pos h1]
    norm_num [addI32]
    omega
  · rw [if_neg h1]
    norm_num [addI32]
    omega

theorem specSaved_nonneg (ls : List Str) (supp : Bool)
    (hsize : sumLen ls + ls.length + 1 < 2147483648) :
    0 ≤ specSaved ls supp := by
  have hu8 : sumSaved ls ≤ sumLen ls := sumSaved_le ls
  have hlf : lfSpec 0 (ls.map rtrim) ≤ 0 + (ls.map rtrim).length := lfSpec_le (ls.map rtrim) 0
  rw [List.length_map] at hlf
  simp only [specSaved]
  rw [toI32_of_lt _ (by omega)]
  by_cases h1 : lfSpec 0 (ls.map rtrim) = 1
  · rw [if_pos h1]
    cases supp <;> norm_num [addI32] <;> omega
  · rw [if_neg h1]
    cases supp <;> norm_num [addI32] <;> omega

/-- Claim C2, as the code has it: on any realistically sized input (total
bytes plus line count below `2^31`), suppressing the final newline yields a
`bytes_saved` exactly one larger than not suppressing it — the flag does
change the reported savings. -/
theorem c2_flag_savings (ls : List Str) (v : Bool)
    (hsize : sumLen ls + ls.length + 1 < 2147483648) :
    (trimPure ls v true).savedO = (trimPure ls v false).savedO + 1 := by
  rw [trimPure_savedO, trimPure_savedO]
  exact specSaved_true_eq ls hsize

/-- Claim C8, as the code has it: on any realistically sized input (total
bytes plus line count below `2^31`), the returned `bytes_saved` is
non-negative, for either value of the suppression flag. -/
theorem c8_savings_nonneg (ls : List Str) (v supp : Bool)
    (hsize : sumLen ls + ls.length + 1 < 2147483648) :
    0 ≤ (trimPure ls v supp).savedO := by
  rw [trimPure_savedO]
  exact specSaved_nonneg ls supp hsize

/-- Claim C3, for every input line sequence.  The engine output is the
trimmed lines minus their trailing all-empty run, joined with single
newlines, plus the configured terminator; the dropped suffix is exactly an
all-empty run (trailing blank lines are removed entirely, never printed,
and the emitted part never ends in an empty line); and any empty-after-trim
line that is followed by a later non-empty line lies inside the emitted
part as an empty (blank) line of the output. -/
theorem c3_blank_lines (ls : List Str) (v supp : Bool) :
    (trimPure ls v supp).outB =
        joinNL (dropTrailingEmpties (ls.map rtrim)) ++ (if supp then [] else ['\n']) ∧
      ls.map rtrim =
        dropTrailingEmpties (ls.map rtrim) ++
          (ls.map rtrim).drop (dropTrailingEmpties (ls.map rtrim)).length ∧
      ((ls.map rtrim).drop (dropTrailingEmpties (ls.map rtrim)).length).all
        (fun x => x.isEmpty) = true ∧
      (dropTrailingEmpties (ls.map rtrim)).getLastD ['#'] ≠ [] ∧
      (∀ i j : Nat, i < j → (ls.map rtrim).getD i ['#'] = [] →
        (ls.map rtrim).getD j [] ≠ [] →
        i < (dropTrailingEmpties (ls.map rtrim)).length ∧
          (dropTrailingEmpties (ls.map rtrim)).getD i ['#'] = []) := by
  obtain ⟨tr, htr, hall⟩ := dTE_decomp (ls.map rtrim)
  set em := dropTrailingEmpties (ls.map rtrim) with hem
  have hdrop : (ls.map rtrim).drop em.length = tr := by
    rw [htr]
    exact List.drop_left _ _
  refine ⟨?_, ?_, ?_, ?_, ?_⟩
  · rw [trimPure_outB, hem, emitFrom_zero]
  · conv_lhs => rw [htr]
    rw [hdrop]
  · rw [hdrop, List.all_eq_true]
    intro x hx
    rw [hall x hx]
    rfl
  · by_cases hne : em = []
    · rw [hne]
      exact fun h0 => List.noConfusion h0
    · exact dTE_getLast _ hne
  · intro i j hij hi hj
    have hjlt : j < em.length := by
      by_contra hge
      push_neg at hge
      apply hj
      rw [htr, List.getD_append_right _ _ _ _ hge]
      rcases Nat.lt_or_ge (j - em.length) tr.length with hlt | hge2
      · rw [List.getD_eq_getElem _ _ hlt]
        exact hall _ (List.getElem_mem hlt)
      · exact List.getD_eq_default _ _ hge2
    have hilt : i < em.length := Nat.lt_trans hij hjlt
    refine ⟨hilt, ?_⟩
    have h2 : (em ++ tr).getD i ['#'] = em.getD i ['#'] := List.getD_append _ _ _ _ hilt
    rw [← htr] at h2
    exact h2.symm.trans hi

theorem visSpecFrom_eq (ls : List Str) : ∀ n : Nat,
    visSpecFrom n ls = (List.enumFrom n ls).filterMap visRecordsFn := by
  induction ls with
  | nil => intro n; rfl
  | cons l r ih =>
    intro n
    rw [visSpecFrom, List.enumFrom_cons, List.filterMap_cons, ih (n + 1)]
    by_cases hl : rtrim l = []
    · rw [if_pos hl]
      rw [show visRecordsFn (n, l) = none from by rw [visRecordsFn, if_pos hl]]
      rfl
    · rw [if_neg hl]
      rw [show visRecordsFn (n, l) =
          visualFor n (rtrim l) (l.length - (rtrim l).length) from by
        rw [visRecordsFn, if_neg hl]]
      rw [visPiece]
      cases hvf : visualFor n (rtrim l) (l.length - (rtrim l).length) with
      | none => rfl
      | some b => rfl

/-- Claim C6, as the code has it: with the visualization sink enabled, the
records written are exactly one `visualFor` record per line whose trimmed
text is non-empty and whose removed length is positive, in input line
order; a line trimming to empty (all-whitespace) produces no record even
though its removed length is positive. -/
theorem c6_visual_records (ls : List Str) (supp : Bool) :
    (trimPure ls true supp).visB = (List.enumFrom 1 ls).filterMap visRecordsFn := by
  rw [trimPure_visB, visSpecFrom_eq ls 1]
  simp

theorem trim_file_rest_spec (cp : RustPath) (fs1 : FS) (o : IoOracle) (p : RustPath)
    (supp : Bool) (c : Str) (res : FileRes) (fs' : FS)
    (hcp : cp ≠ p) (hc : fs1 p = some c)
    (hrun : trim_file_rest cp fs1 o p supp = (res, fs')) :
    (res = .errF → fs' p = some c) ∧
    (∀ sv : Int, res = .okF sv →
      fs' p = some (trim_custom ((splitLines c).map .ok) false supp false).outB) := by
  have hpc : p ≠ cp := fun h => hcp h.symm
  simp only [trim_file_rest, hc, Function.update_noteq hpc] at hrun
  by_cases hcf : o.copyFails = true
  · rw [if_pos hcf] at hrun
    injection hrun with h1 h2
    subst h1; subst h2
    exact ⟨fun _ => hc, fun sv h0 => FileRes.noConfusion h0⟩
  · rw [if_neg hcf] at hrun
    by_cases hof : o.openFails = true
    · rw [if_pos hof] at hrun
      injection hrun with h1 h2
      subst h1; subst h2
      exact ⟨fun _ => (Function.update_noteq hpc _ _).trans hc, fun sv h0 => FileRes.noConfusion h0⟩
    · rw [if_neg hof] at hrun
      by_cases hrf : o.readFails = true
      · rw [if_pos hrf] at hrun
        injection hrun with h1 h2
        subst h1; subst h2
        refine ⟨fun _ => ?_, fun sv h0 => FileRes.noConfusion h0⟩
        rw [Function.update_noteq hpc, Function.update_noteq hpc]
        exact hc
      · rw [if_neg hrf] at hrun
        cases hw : o.writesFail with
        | true =>
          rw [hw] at hrun
          cases htx : trim_custom ((splitLines c).map .ok) false supp true with
          | panicked outP visP =>
            rw [htx] at hrun
            injection hrun with h1 h2
            subst h1; subst h2
            exact ⟨fun h0 => FileRes.noConfusion h0, fun sv h0 => FileRes.noConfusion h0⟩
          | error e outP visP =>
            rw [htx] at hrun
            injection hrun with h1 h2
            subst h1; subst h2
            refine ⟨fun _ => ?_, fun sv h0 => FileRes.noConfusion h0⟩
            rw [Function.update_noteq hpc, Function.update_noteq hpc, Function.update_noteq hpc]
            exact hc
          | ok saved outF visF =>
            exact absurd htx (trim_custom_writesFail_ne_ok _ _ _ _ _ _)
        | false =>
          rw [hw] at hrun
          cases htx : trim_custom ((splitLines c).map .ok) false supp false with
          | panicked outP visP =>
            rw [htx] at hrun
            injection hrun with h1 h2
            subst h1; subst h2
            exact ⟨fun h0 => FileRes.noConfusion h0, fun sv h0 => FileRes.noConfusion h0⟩
          | error e outP visP =>
            rw [htx] at hrun
            injection hrun with h1 h2
            subst h1; subst h2
            refine ⟨fun _ => ?_, fun sv h0 => FileRes.noConfusion h0⟩
            rw [Function.update_noteq hpc, Function.update_noteq hpc, Function.update_noteq hpc]
            exact hc
          | ok saved outF visF =>
            rw [htx] at hrun
            by_cases hrn : o.renameFails = true
            · simp only [if_pos hrn] at hrun
              injection hrun with h1 h2
              subst h1; subst h2
              refine ⟨fun _ => ?_, fun sv h0 => FileRes.noConfusion h0⟩
              rw [Function.update_noteq hpc, Function.update_noteq hpc,
                Function.update_noteq hpc]
              exact hc
            · simp only [if_neg hrn] at hrun
              injection hrun with h1 h2
              subst h1; subst h2
              refine ⟨fun h0 => FileRes.noConfusion h0, fun sv _ => ?_⟩
              rw [Function.update_same, Function.update_same, outB_ok]

/-- Claim C5.  For a path holding content `c` whose derived temp path is a
different path, however the I/O oracle makes the steps of `trim_file` fail:
if the call returns an error, the original path still holds exactly `c`;
and if it returns `Ok`, the original path holds exactly the engine's
trimmed output for `c` — the content at the original path is changed only
by the final rename. -/
theorem c5_inplace_safety (tmpDir : RustPath) (hash : Str → Nat) (fs : FS)
    (o : IoOracle) (p : RustPath) (supp : Bool) (bn c : Str) (res : FileRes) (fs' : FS)
    (hbn : fileName p = some bn)
    (hne : tempPathOf tmpDir hash bn ≠ p)
    (hc : fs p = some c)
    (hrun : trim_file tmpDir hash fs o p supp = (res, fs')) :
    (res = .errF → fs' p = some c) ∧
    (∀ sv : Int, res = .okF sv →
      fs' p = some (trim_custom ((splitLines c).map .ok) false supp false).outB) := by
  have hpc : p ≠ tempPathOf tmpDir hash bn := fun h => hne h.symm
  simp only [trim_file, hbn] at hrun
  by_cases hex : (fs (tempPathOf tmpDir hash bn)).isSome = true
  · rw [if_pos hex] at hrun
    by_cases hrm : o.removeFails = true
    · rw [if_pos hrm] at hrun
      injection hrun with h1 h2
      subst h1; subst h2
      exact ⟨fun _ => hc, fun sv h0 => FileRes.noConfusion h0⟩
    · rw [if_neg hrm] at hrun
      exact trim_file_rest_spec _ _ _ _ _ _ _ _ hne
        ((Function.update_noteq hpc _ _).trans hc) hrun
  · rw [if_neg hex] at hrun
    exact trim_file_rest_spec _ _ _ _ _ _ _ _ hne hc hrun

/-- Claim C7, as the code has it: the temporary path is a function of the
source path's basename alone — any two paths with the same file name (even
in different directories) are mapped to the same temporary file. -/
theorem c7_temp_path_basename (tmpDir : RustPath) (hash : Str → Nat) (p1 p2 : RustPath)
    (bn : Str) (h1 : fileName p1 = some bn) (h2 : fileName p2 = some bn) :
    tempPathForFile tmpDir hash p1 = tempPathForFile tmpDir hash p2 := by
  rw [tempPathForFile, tempPathForFile, h1, h2]

/-- Counterexample to claim C7 as stated: `/a/foo` and `/b/foo` are distinct
source paths, yet they derive the same temporary path (shown here for a
concrete stand-in hash; the derivation hashes only the shared basename, so
any deterministic hash collides on them). -/
theorem c7_temp_collision_cex :
    (⟨true, [.normal "a".data, .normal "foo".data]⟩ : RustPath) ≠
        ⟨true, [.normal "b".data, .normal "foo".data]⟩ ∧
      tempPathForFile ⟨true, [.normal "tmp".data]⟩ (fun s => s.length)
          ⟨true, [.normal "a".data, .normal "foo".data]⟩ =
        tempPathForFile ⟨true, [.normal "tmp".data]⟩ (fun s => s.length)
          ⟨true, [.normal "b".data, .normal "foo".data]⟩ ∧
      (tempPathForFile ⟨true, [.normal "tmp".data]⟩ (fun s => s.length)
          ⟨true, [.normal "a".data, .normal "foo".data]⟩).isSome = true := by
  decide

theorem c7_temp_path_basename_witness :
    tempPathForFile ⟨true, [.normal "tmp".data]⟩ (fun _ => 5)
        ⟨true, [.normal "x".data, .normal "q".data]⟩ =
      tempPathForFile ⟨true, [.normal "tmp".data]⟩ (fun _ => 5)
        ⟨true, [.normal "y".data, .normal "q".data]⟩ :=
  c7_temp_path_basename _ _ _ _ ("q".data) (by decide) (by decide)

/-- Claim C10: paths accepted by `trim_files` whose final component is not a
normal file name — the root, or a path ending in `..` — make `trim_file`
panic on `path.file_name().unwrap()` instead of yielding an error outcome,
so the batch mapping records a panic, not a per-path error. -/
theorem c10_unwrap_panic :
    fileName ⟨true, []⟩ = none ∧
      fileName ⟨true, [.normal "a".data, .parent]⟩ = none ∧
      (trim_file ⟨true, [.normal "tmp".data]⟩ (fun s => s.length) (fun _ => some "x ".data)
          ⟨false, false, false, false, false, false⟩ ⟨true, []⟩ false).1 = .panickedF ∧
      (trim_file ⟨true, [.normal "tmp".data]⟩ (fun s => s.length) (fun _ => some "x ".data)
          ⟨false, false, false, false, false, false⟩
          ⟨true, [.normal "a".data, .parent]⟩ false).1 = .panickedF ∧
      trim_files ⟨true, [.normal "tmp".data]⟩ (fun s => s.length) (fun _ => some "x ".data)
          ⟨false, false, false, false, false, false⟩ [⟨true, []⟩] false =
        [(⟨true, []⟩, .panickedF)] := by
  decide

/-- Claim C4: a read error among the lines does not become the engine run's
`Err` result — `io::Result::unwrap` panics on it instead (the lines before
it were already written to the output sink). -/
theorem c4_read_error_panics :
    trim_custom [Except.ok "ab".data, Except.error "boom".data] true false false =
      .panicked "ab".data [] := by
  decide

/-- Counterexample to claim C1 as stated: with `suppress_final_newline =
false`, input `"abc"` yields `bytes_saved = 0`, not the claimed 1. -/
theorem c1_literal_scenarios_cex :
    trimFromRaw "abc".data true false = .ok 0 "abc\n".data [] ∧ (0 : Int) ≠ 1 := by
  decide

/-- Claim C1, as the code has it.  With `suppress_final_newline = false` the
outputs are `"abc\n"`, `"ab\ncd\n"` and `"\n"` with `bytes_saved` 0, 10
and 0; the savings the spec quotes (1, 11, 1) and the empty output for
empty input are produced with `suppress_final_newline = true`. -/
theorem c1_literal_scenarios :
    trimFromRaw "abc".data true false = .ok 0 "abc\n".data [] ∧
      trimFromRaw "ab \ncd \n  \n\n  \n".data true false =
        .ok 10 "ab\ncd\n".data [visualRecord 1 "ab".data 1, visualRecord 2 "cd".data 1] ∧
      trimFromRaw "".data true false = .ok 0 "\n".data [] ∧
      trimFromRaw "abc".data true true = .ok 1 "abc".data [] ∧
      trimFromRaw "ab \ncd \n  \n\n  \n".data true true =
        .ok 11 "ab\ncd".data [visualRecord 1 "ab".data 1, visualRecord 2 "cd".data 1] ∧
      trimFromRaw "".data true true = .ok 1 "".data [] := by
  decide

/-- Counterexample to claim C2 as stated: on the single line `"abc"` the
engine reports 0 bytes saved without suppression and 1 with it. -/
theorem c2_flag_savings_cex :
    (trimPure ["abc".data] true false).savedO = 0 ∧
      (trimPure ["abc".data] true true).savedO = 1 ∧ (0 : Int) ≠ 1 := by
  decide

theorem c2_flag_savings_witness :
    (trimPure ["ab ".data] true true).savedO = (trimPure ["ab ".data] true false).savedO + 1 :=
  c2_flag_savings ["ab ".data] true (by decide)

/-- Counterexample to claim C6 as stated: the all-whitespace line `"  "`
has removed-length 2 > 0, yet the run writes no visualization record. -/
theorem c6_visual_cex :
    rtrim "  ".data = [] ∧ ("  ".data).length = 2 ∧
      trimPure ["  ".data] true false = .ok 2 "\n".data [] := by
  decide

/-- Counterexample to claim C8 as stated: a single line of `2^31` spaces is
all removed, the `usize` count `2^31 + 1` wraps in the `as i32` cast, and
the engine returns `bytes_saved = -2147483648 < 0`. -/
theorem stepLine_empty (w v : Bool) (st : EngineSt) (n : Nat) (line : Str) (lf u8 : Nat)
    (hacc : st.acc = .ok (lf, u8)) (hl : rtrim line = []) :
    stepLine w v st n line = { st with acc := .ok (lf + 1, u8 + line.length) } := by
  simp [stepLine, hacc, hl]

theorem c8_savings_overflow_cex :
    trim_custom [Except.ok (List.replicate 2147483648 ' ')] false false false =
      .ok (-2147483648) ['\n'] [] ∧ (-2147483648 : Int) < 0 := by
  refine ⟨?_, by decide⟩
  have hrt : rtrim (List.replicate 2147483648 ' ') = [] := rtrim_replicate_space _
  have hst := stepLine_empty false false ⟨.ok (0, 0), [], []⟩ 1
    (List.replicate 2147483648 ' ') 0 0 rfl hrt
  rw [List.length_replicate] at hst
  rw [Nat.zero_add, Nat.zero_add] at hst
  have hfold : foldLines false false ⟨.ok (0, 0), [], []⟩ 1
      [.ok (List.replicate 2147483648 ' ')] = (⟨.ok (1, 2147483648), [], []⟩, false) := by
    simp only [foldLines]
    rw [hst]
  simp only [trim_custom, hfold]
  norm_num [toI32, addI32]

theorem c8_savings_nonneg_witness : 0 ≤ (trimPure ["ab ".data] false false).savedO :=
  c8_savings_nonneg ["ab ".data] false false (by decide)

/-- Counterexample to claim C9 as stated: `"abc"` is already in trimmed form
for the suppressed-newline convention; trimming it reproduces the bytes
exactly but reports `bytes_saved = 1`, not 0. -/
theorem c9_idempotence_cex :
    linesRaw "abc".data = ["abc".data] ∧
      rtrim "abc".data = "abc".data ∧
      ("abc".data).getLast? = some 'c' ∧
      trimFromRaw "abc".data true true = .ok 1 "abc".data [] ∧ (1 : Int) ≠ 0 := by
  decide

theorem c9_idempotent_witness :
    trimFromRaw "ab\n".data true false = .ok 0 "ab\n".data [] :=
  c9_idempotent "ab\n".data true false (by decide) (by decide) (by decide)

theorem c5_inplace_safety_witness :
    ((trim_file ⟨true, [.normal "tmp".data]⟩ (fun s => s.length)
          (fun q => if q = ⟨true, [.normal "a".data, .normal "f".data]⟩
            then some "x \n".data else none)
          ⟨false, false, false, false, false, true⟩
          ⟨true, [.normal "a".data, .normal "f".data]⟩ false).1 = .errF →
        (trim_file ⟨true, [.normal "tmp".data]⟩ (fun s => s.length)
          (fun q => if q = ⟨true, [.normal "a".data, .normal "f".data]⟩
            then some "x \n".data else none)
          ⟨false, false, false, false, false, true⟩
          ⟨true, [.normal "a".data, .normal "f".data]⟩ false).2
          ⟨true, [.normal "a".data, .normal "f".data]⟩ = some "x \n".data) ∧
      (∀ sv : Int, (trim_file ⟨true, [.normal "tmp".data]⟩ (fun s => s.length)
          (fun q => if q = ⟨true, [.normal "a".data, .normal "f".data]⟩
            then some "x \n".data else none)
          ⟨false, false, false, false, false, true⟩
          ⟨true, [.normal "a".data, .normal "f".data]⟩ false).1 = .okF sv →
        (trim_file ⟨true, [.normal "tmp".data]⟩ (fun s => s.length)
          (fun q => if q = ⟨true, [.normal "a".data, .normal "f".data]⟩
            then some "x \n".data else none)
          ⟨false, false, false, false, false, true⟩
          ⟨true, [.normal "a".data, .normal "f".data]⟩ false).2
          ⟨true, [.normal "a".data, .normal "f".data]⟩ =
          some (trim_custom ((splitLines "x \n".data).map .ok) false false false).outB) :=
  c5_inplace_safety ⟨true, [.normal "tmp".data]⟩ (fun s => s.length)
    (fun q => if q = ⟨true, [.normal "a".data, .normal "f".data]⟩
      then some "x \n".data else none)
    ⟨false, false, false, false, false, true⟩
    ⟨true, [.normal "a".data, .normal "f".data]⟩ false ("f".data) ("x \n".data) _ _
    (by decide) (by decide) (by decide) rfl
